import Mathlib

open scoped List

/-!
Shallow embedding of `src/tracker_app.py` (a Streamlit progress tracker).

Python dictionaries are modelled as insertion-ordered association lists
(`List (String × α)`): lookup takes the first matching key, assignment to an
existing key replaces the entry in place, assignment to a fresh key appends.
`dict.get(k, d)` is `dget m k d`.  Python's `str.strip` is `pstrip`
(drop whitespace from both ends), `str.lower` is `pylower`, and the
substring test `a in b` is `isSubstr a b`.  Python's `sorted`/`list.sort` is a
stable sort and is modelled by `List.mergeSort` (also stable); `reverse=True`
is modelled by flipping the comparison, which is how a stable reverse sort
behaves on ties.  JSON persistence is modelled at the level of the decoded
records (`RawRecord`); `json.dumps` is deterministic on a given dict, so
byte-level equality of saved files corresponds to equality of the saved
association lists.
-/

/-- The 10 fixed variant categories (`VARIANTS` in the source), as
(key, label) pairs. -/
def VARIANTS : List (String × String) :=
  [("dikey", "Dikey"),
   ("yatay", "Yatay"),
   ("kare", "Kare"),
   ("ince_dikey", "İnce dikey"),
   ("ince_yatay", "İnce yatay"),
   ("eksik_dikey", "Eksik dikey"),
   ("eksik_yatay", "Eksik yatay"),
   ("eksik_kare", "Eksik kare"),
   ("eksik_ince_dikey", "Eksik ince dikey"),
   ("eksik_ince_yatay", "Eksik ince yatay")]

/-- The 6 per-variant checklist steps (`COLUMN_STEPS` in the source). -/
def COLUMN_STEPS : List (String × String) :=
  [("eserlerin_editlendi", "Eserlerin editlendi"),
   ("kalite_artirildi", "Kalite - artırıldı"),
   ("urun_aciklamalari_olusturuldu", "Ürün açıklamaları oluşturuldu"),
   ("mockuplar_videolar_olusturuldu", "Mockuplar ve videolar oluşturuldu"),
   ("printify_yuklendi", "Printify'a - yüklendi"),
   ("etsy_yuklendi", "Etsy'e yüklendi")]

/-- The 3 one-time per-artist steps (`GLOBAL_STEPS` in the source). -/
def GLOBAL_STEPS : List (String × String) :=
  [("research_tamamlandi", "Sanatçının satan ve popüler eserlerinin araştırılması"),
   ("eksikler_belirlendi", "Kaynaklarımız içerisinde bulunmayan popüler eserlerin tespit edilmesi"),
   ("eksikler_tamamlandi", "Eksik olduğu tespit edilen popüler eserlerin temin edilmesi")]

/-- Python `dict.get(k, d)` on an association list: value of the first entry
with key `k`, else the default `d`. -/
def dget {α : Type} (m : List (String × α)) (k : String) (d : α) : α :=
  match m.find? (fun p => p.1 == k) with
  | some p => p.2
  | none => d

/-- The keys of an association list, in order. -/
def keysOf {α : Type} (m : List (String × α)) : List String :=
  m.map Prod.fst

/-- Python `str.strip()`: remove whitespace from both ends of a string. -/
def pstrip (s : String) : String :=
  ⟨List.rdropWhile Char.isWhitespace (List.dropWhile Char.isWhitespace s.data)⟩

/-- Python `str.lower()`: lowercase character by character. -/
def pylower (s : String) : String :=
  ⟨s.data.map Char.toLower⟩

/-- Python `needle in hay` for strings: substring containment (true for the
empty needle). -/
def isSubstr (needle hay : String) : Bool :=
  (List.range (hay.data.length + 1)).any (fun i => needle.data.isPrefixOf (hay.data.drop i))

/-- The `ArtistProgress` dataclass of the source.  `global_steps` maps each
global step key to a flag; `variants` maps each variant key to a map from
column-step keys to flags. -/
structure ArtistProgress where
  id : String
  label : String
  order : Int
  global_steps : List (String × Bool)
  variants : List (String × List (String × Bool))
deriving DecidableEq

/-- Model of `empty_variant_steps()` from the source: all 6 column steps false. -/
def empty_variant_steps : List (String × Bool) :=
  COLUMN_STEPS.map (fun p => (p.1, false))

/-- Model of `empty_global_steps()` from the source: all 3 global steps false. -/
def empty_global_steps : List (String × Bool) :=
  GLOBAL_STEPS.map (fun p => (p.1, false))

/-- Model of `calc_done_total(ap)` from the source: walk the fixed catalogs, counting
one `total` per step and one `done` per step whose flag reads true
(`dict.get` with default false at each level). -/
def calc_done_total (ap : ArtistProgress) : Nat × Nat :=
  let dt := GLOBAL_STEPS.foldl
    (fun (dt : Nat × Nat) g =>
      (dt.1 + (if dget ap.global_steps g.1 false then 1 else 0), dt.2 + 1)) (0, 0)
  VARIANTS.foldl
    (fun dt v =>
      COLUMN_STEPS.foldl
        (fun dt s =>
          (dt.1 + (if dget (dget ap.variants v.1 []) s.1 false then 1 else 0), dt.2 + 1)) dt) dt

/-- Model of `is_completed(ap)` from the source: `t > 0 and d == t`. -/
def is_completed (ap : ArtistProgress) : Bool :=
  decide (0 < (calc_done_total ap).2) && decide ((calc_done_total ap).1 = (calc_done_total ap).2)

/-- Model of `filter_artists(all_artists, q, filter_mode)` from the source: text filter
(case-insensitive substring of the stripped query against the label, skipped
when the stripped query is empty), then the completion filter. -/
def filter_artists (all_artists : List ArtistProgress) (q : String) (filter_mode : String) :
    List ArtistProgress :=
  let res := all_artists
  let res := if pstrip q ≠ "" then
    res.filter (fun a => isSubstr (pylower (pstrip q)) (pylower a.label)) else res
  if filter_mode = "Sadece tamamlanmamışlar" then res.filter (fun a => !is_completed a)
  else if filter_mode = "Sadece tamamlanmışlar" then res.filter (fun a => is_completed a)
  else res

/-- The sort key of the progress-descending view (line 409 of the source):
`calc_done_total(a)[0] / max(1, calc_done_total(a)[1])`, as an exact rational
(the Python floats `k/63`, `k ≤ 63`, are far apart relative to rounding, so
their comparisons agree with the exact values). -/
def ratio (a : ArtistProgress) : ℚ :=
  ((calc_done_total a).1 : ℚ) / ((max 1 (calc_done_total a).2 : Nat) : ℚ)

/-- Model of `artists.sort(key=..., reverse=True)` of line 409: a stable sort,
descending by `ratio`. -/
def sortByProgress (artists : List ArtistProgress) : List ArtistProgress :=
  artists.mergeSort (fun a b => decide (ratio b ≤ ratio a))

/-- Model of `full_ids` in `apply_subset_reorder`: ids sorted by the current `order`
(stable ascending sort). -/
def fullIdsOf (data : List ArtistProgress) : List String :=
  (data.mergeSort (fun a b => decide (a.order ≤ b.order))).map (fun a => a.id)

/-- Model of `positions` in `apply_subset_reorder`: the indices into `full` whose id
belongs to the subset (`[i for i, _id in enumerate(full_ids) if _id in subset_set]`). -/
def subsetPositions (full subset : List String) : List Nat :=
  ((full.enum).filter (fun p => decide (p.2 ∈ subset))).map Prod.fst

/-- The splice loop of `apply_subset_reorder`
(`new_full = full_ids[:]` then
`for j, pos in enumerate(positions): new_full[pos] = subset_ids_new_order[j]`). -/
def spliceSubset (full : List String) (positions : List Nat) (subset : List String) :
    List String :=
  (positions.zip subset).foldl (fun acc pv => acc.set pv.1 pv.2) full

/-- The state-update loop of `apply_subset_reorder`
(`for idx, artist_id in enumerate(new_full, start=1): data[artist_id].order = idx`). -/
def setOrders (data : List ArtistProgress) (new_full : List String) : List ArtistProgress :=
  (List.enumFrom 1 new_full).foldl
    (fun d p => d.map (fun a => if a.id = p.2 then { a with order := (p.1 : Int) } else a)) data

/-- The spliced full id sequence of `apply_subset_reorder data subset`. -/
def newFullOf (data : List ArtistProgress) (subset : List String) : List String :=
  spliceSubset (fullIdsOf data) (subsetPositions (fullIdsOf data) subset) subset

/-- Model of `apply_subset_reorder(data, subset_ids_new_order)` from the source.
Returns the `changed` flag together with the resulting collection (the Python
version mutates `data` in place and persists it exactly when `changed`). -/
def apply_subset_reorder (data : List ArtistProgress) (subset : List String) :
    Bool × List ArtistProgress :=
  if (subsetPositions (fullIdsOf data) subset).length ≠ subset.length then (false, data)
  else if newFullOf data subset ≠ fullIdsOf data then (true, setOrders data (newFullOf data subset))
  else (false, data)

/-- One decoded entry of the persisted JSON object, as `load_data` reads it
(`v.get(...)` at each field; a missing field is `none`). -/
structure RawRecord where
  id : Option String
  label : Option String
  order : Option Int
  global_steps : Option (List (String × Bool))
  variants : Option (List (String × List (String × Bool)))
deriving DecidableEq

/-- Python `data[k] = v` on an association list: replace in place if the key
exists, else append. -/
def dictInsert {α : Type} (m : List (String × α)) (k : String) (v : α) : List (String × α) :=
  if m.any (fun p => p.1 == k) then m.map (fun p => if p.1 == k then (k, v) else p)
  else m ++ [(k, v)]

/-- The per-entry normalization of `load_data` (lines 147-171 of the source):
`artist_id` is the stripped `id` field, else the stripped storage key;
`label` is the stripped `label` field, else `artist_id`; `order` defaults to
`10^9`; `global_steps`/`variants` are rebuilt over the fixed catalogs
(`empty_global_steps()` then one assignment per catalog key amounts to a map
over the catalog), reading each flag with `dict.get(..., False)`. -/
def normalizeEntry (key : String) (v : RawRecord) : String × ArtistProgress :=
  let artist_id := if pstrip (v.id.getD "") ≠ "" then pstrip (v.id.getD "") else pstrip key
  let label := if pstrip (v.label.getD "") ≠ "" then pstrip (v.label.getD "") else artist_id
  let order := v.order.getD (10 ^ 9)
  let global_steps := GLOBAL_STEPS.map (fun g => (g.1, dget (v.global_steps.getD []) g.1 false))
  let variants := VARIANTS.map (fun ve =>
    (ve.1, COLUMN_STEPS.map (fun s =>
      (s.1, dget (dget (v.variants.getD []) ve.1 []) s.1 false))))
  (artist_id, ⟨artist_id, label, order, global_steps, variants⟩)

/-- Model of `load_data()` from the source, on an already-decoded store: normalize each
entry and key the result by the resolved `artist_id` (`data[artist_id] = ...`). -/
def load_data (raw : List (String × RawRecord)) : List (String × ArtistProgress) :=
  raw.foldl (fun data e =>
    dictInsert data (normalizeEntry e.1 e.2).1 (normalizeEntry e.1 e.2).2) []

/-- Model of `dataclasses.asdict` of an `ArtistProgress`: every field present. -/
def recordOf (ap : ArtistProgress) : RawRecord :=
  ⟨some ap.id, some ap.label, some ap.order, some ap.global_steps, some ap.variants⟩

/-- Model of `save_data(data)` from the source: serialize every entry
(`{artist_id: asdict(ap)}`). -/
def save_data (data : List (String × ArtistProgress)) : List (String × RawRecord) :=
  data.map (fun e => (e.1, recordOf e.2))

/-- The checklist-shape invariant of §3 of the spec: `global_steps` has
exactly the 3 catalog keys, `variants` exactly the 10 variant keys, each with
exactly the 6 column-step keys.  This holds for every artist built by
`ArtistProgress.new` or by `load_data`. -/
abbrev NormalizedSteps (ap : ArtistProgress) : Prop :=
  keysOf ap.global_steps = keysOf GLOBAL_STEPS
  ∧ keysOf ap.variants = keysOf VARIANTS
  ∧ ∀ pv ∈ ap.variants, keysOf pv.2 = keysOf COLUMN_STEPS

/-- All stored flags of the artist read false. -/
abbrev AllFalse (ap : ArtistProgress) : Prop :=
  (∀ p ∈ ap.global_steps, p.2 = false) ∧ ∀ pv ∈ ap.variants, ∀ p ∈ pv.2, p.2 = false

/-- All stored flags of the artist read true. -/
abbrev AllTrue (ap : ArtistProgress) : Prop :=
  (∀ p ∈ ap.global_steps, p.2 = true) ∧ ∀ pv ∈ ap.variants, ∀ p ∈ pv.2, p.2 = true

/-- The count of true flags stored across `global_steps` and all variants. -/
def trueCount (ap : ArtistProgress) : Nat :=
  ap.global_steps.countP (fun p => p.2)
    + (ap.variants.map (fun pv => pv.2.countP (fun p => p.2))).sum

/-- A bare artist used for concrete reorder examples: id = label, no steps
recorded (all flags read false through `dict.get` defaults). -/
def mkArtist (i : String) (ord : Int) : ArtistProgress :=
  ⟨i, i, ord, [], []⟩

/-- The five-artist example collection of the spec (full order [A,B,C,D,E]). -/
def exData : List ArtistProgress :=
  [mkArtist "A" 1, mkArtist "B" 2, mkArtist "C" 3, mkArtist "D" 4, mkArtist "E" 5]

/-- The example collection after reordering the subset {B,D} to [D,B]: the new
full sequence is [A,D,C,B,E], so orders become A↦1, D↦2, C↦3, B↦4, E↦5 while
the list (dict insertion order) is unchanged. -/
def exDataAfter : List ArtistProgress :=
  [mkArtist "A" 1, mkArtist "B" 4, mkArtist "C" 3, mkArtist "D" 2, mkArtist "E" 5]

/-- A persisted record with every field missing. -/
def recEmpty : RawRecord :=
  ⟨none, none, none, none, none⟩

/-- A persisted record with a non-blank `id` field but a blank `label`. -/
def recX : RawRecord :=
  ⟨some "X", some " ", none, none, none⟩

/-- A normalized artist with every flag set. -/
def apTrue : ArtistProgress :=
  ⟨"t", "t", 1, GLOBAL_STEPS.map (fun g => (g.1, true)),
   VARIANTS.map (fun v => (v.1, COLUMN_STEPS.map (fun s => (s.1, true))))⟩

/-- A normalized artist with every flag clear. -/
def apFalse : ArtistProgress :=
  ⟨"f", "f", 2, empty_global_steps, VARIANTS.map (fun v => (v.1, empty_variant_steps))⟩

/-!  Helper lemmas. -/

theorem dget_cons {α : Type} (p : String × α) (m : List (String × α)) (k : String) (d : α) :
    dget (p :: m) k d = if p.1 = k then p.2 else dget m k d := by
  by_cases h : p.1 = k
  · simp [dget, List.find?_cons_of_pos, h]
  · have hb : ¬ (p.1 == k) = true := by simpa using h
    simp [dget, List.find?_cons_of_neg, hb, h]

theorem dget_of_all_false (m : List (String × Bool)) (k : String)
    (h : ∀ p ∈ m, p.2 = false) : dget m k false = false := by
  unfold dget
  cases hf : m.find? (fun p => p.1 == k) with
  | none => rfl
  | some p => exact h p (List.mem_of_find?_eq_some hf)

theorem keysOf_nil {α : Type} : keysOf ([] : List (String × α)) = [] := rfl

theorem keysOf_cons {α : Type} (p : String × α) (m : List (String × α)) :
    keysOf (p :: m) = p.1 :: keysOf m := rfl

theorem mem_keysOf_of_mem {α : Type} {p : String × α} {m : List (String × α)}
    (h : p ∈ m) : p.1 ∈ keysOf m :=
  List.mem_map_of_mem Prod.fst h

theorem dget_map_self {α γ : Type} (f : String → α) (k : String) (d : α) :
    ∀ (cat : List (String × γ)), (keysOf cat).Nodup → k ∈ keysOf cat →
      dget (cat.map (fun c => (c.1, f c.1))) k d = f k
  | [], _, hk => by rw [keysOf_nil] at hk; cases hk
  | c :: cat, hnd, hk => by
    rw [keysOf_cons] at hnd hk
    rw [List.map_cons, dget_cons]
    by_cases h : c.1 = k
    · simp [h]
    · have hk' : k ∈ keysOf cat := (List.mem_cons.mp hk).resolve_left fun he => h he.symm
      simp only [h, if_false]
      exact dget_map_self f k d cat (List.nodup_cons.mp hnd).2 hk'

theorem catalog_countP_dget {γ : Type} :
    ∀ (cat : List (String × γ)) (m : List (String × Bool)),
      keysOf m = keysOf cat → (keysOf cat).Nodup →
      cat.countP (fun g => dget m g.1 false) = m.countP (fun p => p.2)
  | [], m, hk, _ => by
    rw [keysOf_nil] at hk
    have : m = [] := by simpa [keysOf] using hk
    simp [this]
  | c :: cat, m, hk, hnd => by
    obtain ⟨q, m', rfl⟩ : ∃ q m', m = q :: m' := by
      cases m with
      | nil => rw [keysOf_nil, keysOf_cons] at hk; cases hk
      | cons q m' => exact ⟨q, m', rfl⟩
    rw [keysOf_cons, keysOf_cons] at hk
    obtain ⟨hq, hk'⟩ := List.cons_eq_cons.mp hk
    rw [keysOf_cons] at hnd
    have hnd' := List.nodup_cons.mp hnd
    rw [List.countP_cons, List.countP_cons, dget_cons, hq, if_pos rfl]
    have htail : cat.countP (fun g => dget (q :: m') g.1 false)
        = cat.countP (fun g => dget m' g.1 false) := by
      apply List.countP_congr
      intro g hg
      have hmem : g.1 ∈ keysOf cat := mem_keysOf_of_mem hg
      have hne : ¬ q.1 = g.1 := by
        rw [hq]; intro hc; exact hnd'.1 (hc ▸ hmem)
      rw [dget_cons, if_neg hne]
    rw [htail, catalog_countP_dget cat m' hk' hnd'.2]

theorem catalog_map_dget {γ δ β : Type} (F : δ → β) (d : δ) :
    ∀ (cat : List (String × γ)) (m : List (String × δ)),
      keysOf m = keysOf cat → (keysOf cat).Nodup →
      cat.map (fun v => F (dget m v.1 d)) = m.map (fun pv => F pv.2)
  | [], m, hk, _ => by
    rw [keysOf_nil] at hk
    have : m = [] := by simpa [keysOf] using hk
    simp [this]
  | c :: cat, m, hk, hnd => by
    obtain ⟨q, m', rfl⟩ : ∃ q m', m = q :: m' := by
      cases m with
      | nil => rw [keysOf_nil, keysOf_cons] at hk; cases hk
      | cons q m' => exact ⟨q, m', rfl⟩
    rw [keysOf_cons, keysOf_cons] at hk
    obtain ⟨hq, hk'⟩ := List.cons_eq_cons.mp hk
    rw [keysOf_cons] at hnd
    have hnd' := List.nodup_cons.mp hnd
    rw [List.map_cons, List.map_cons, dget_cons, hq, if_pos rfl]
    congr 1
    have htail : cat.map (fun v => F (dget (q :: m') v.1 d))
        = cat.map (fun v => F (dget m' v.1 d)) := by
      apply List.map_congr_left
      intro g hg
      have hmem : g.1 ∈ keysOf cat := mem_keysOf_of_mem hg
      have hne : ¬ q.1 = g.1 := by
        rw [hq]; intro hc; exact hnd'.1 (hc ▸ hmem)
      rw [dget_cons, if_neg hne]
    rw [htail, catalog_map_dget F d cat m' hk' hnd'.2]

theorem foldl_pair_count {β : Type} (f : β → Bool) :
    ∀ (l : List β) (p : Nat × Nat),
      l.foldl (fun dt x => (dt.1 + (if f x then 1 else 0), dt.2 + 1)) p
        = (p.1 + l.countP f, p.2 + l.length)
  | [], p => by simp
  | x :: l, p => by
    rw [List.foldl_cons, foldl_pair_count f l, List.countP_cons, List.length_cons]
    refine Prod.ext ?_ ?_ <;> simp <;> omega

theorem foldl_pair_add {β : Type} (g : β → Nat) (c : Nat) :
    ∀ (l : List β) (p : Nat × Nat),
      l.foldl (fun dt x => (dt.1 + g x, dt.2 + c)) p
        = (p.1 + (l.map g).sum, p.2 + l.length * c)
  | [], p => by simp
  | x :: l, p => by
    rw [List.foldl_cons, foldl_pair_add g c l, List.map_cons, List.sum_cons, List.length_cons]
    refine Prod.ext ?_ ?_ <;> simp <;> ring

theorem calc_done_total_eq (ap : ArtistProgress) :
    calc_done_total ap
      = (GLOBAL_STEPS.countP (fun g => dget ap.global_steps g.1 false)
          + (VARIANTS.map (fun v =>
              COLUMN_STEPS.countP (fun s => dget (dget ap.variants v.1 []) s.1 false))).sum,
         63) := by
  unfold calc_done_total
  simp only [foldl_pair_count, foldl_pair_add]
  have h3 : GLOBAL_STEPS.length = 3 := rfl
  have h10 : VARIANTS.length = 10 := rfl
  have h6 : COLUMN_STEPS.length = 6 := rfl
  rw [h3, h10, h6]
  refine Prod.ext ?_ ?_ <;> simp

theorem dget_cases {α : Type} (m : List (String × α)) (k : String) (d : α) :
    dget m k d = d ∨ ∃ p ∈ m, dget m k d = p.2 := by
  unfold dget
  cases hf : m.find? (fun p => p.1 == k) with
  | none => exact Or.inl rfl
  | some p => exact Or.inr ⟨p, List.mem_of_find?_eq_some hf, rfl⟩

theorem done_eq_trueCount (ap : ArtistProgress) (hn : NormalizedSteps ap) :
    (calc_done_total ap).1 = trueCount ap := by
  obtain ⟨hg, hv, hcols⟩ := hn
  rw [calc_done_total_eq]
  dsimp only
  unfold trueCount
  congr 1
  · exact catalog_countP_dget GLOBAL_STEPS ap.global_steps hg (by decide)
  · have h1 : VARIANTS.map (fun v =>
        COLUMN_STEPS.countP (fun s => dget (dget ap.variants v.1 []) s.1 false))
        = ap.variants.map (fun pv => COLUMN_STEPS.countP (fun s => dget pv.2 s.1 false)) :=
      catalog_map_dget (fun steps => COLUMN_STEPS.countP (fun s => dget steps s.1 false)) []
        VARIANTS ap.variants hv (by decide)
    rw [h1]
    congr 1
    apply List.map_congr_left
    intro pv hpv
    exact catalog_countP_dget COLUMN_STEPS pv.2 (hcols pv hpv) (by decide)

theorem calc_allFalse (ap : ArtistProgress) (h : AllFalse ap) :
    calc_done_total ap = (0, 63) := by
  obtain ⟨hgf, hvf⟩ := h
  rw [calc_done_total_eq]
  refine Prod.ext ?_ rfl
  have h1 : GLOBAL_STEPS.countP (fun g => dget ap.global_steps g.1 false) = 0 :=
    List.countP_eq_zero.mpr (fun g _ => by simp [dget_of_all_false _ _ hgf])
  have h2 : ∀ v ∈ VARIANTS,
      COLUMN_STEPS.countP (fun s => dget (dget ap.variants v.1 []) s.1 false) = 0 := by
    intro v _
    have hinner : ∀ p ∈ dget ap.variants v.1 [], p.2 = false := by
      rcases dget_cases ap.variants v.1 [] with hd | ⟨pv, hpv, hd⟩
      · rw [hd]; intro p hp; cases hp
      · rw [hd]; exact hvf pv hpv
    exact List.countP_eq_zero.mpr (fun s _ => by simp [dget_of_all_false _ _ hinner])
  have h3 : (VARIANTS.map (fun v =>
      COLUMN_STEPS.countP (fun s => dget (dget ap.variants v.1 []) s.1 false))).sum = 0 := by
    have : VARIANTS.map (fun v =>
        COLUMN_STEPS.countP (fun s => dget (dget ap.variants v.1 []) s.1 false))
        = VARIANTS.map (fun _ => 0) := List.map_congr_left (fun v hv => h2 v hv)
    rw [this]
    simp
  simp [h1, h3]

theorem trueCount_allTrue (ap : ArtistProgress) (hn : NormalizedSteps ap) (ht : AllTrue ap) :
    trueCount ap = 63 := by
  obtain ⟨hg, hv, hcols⟩ := hn
  obtain ⟨hgt, hvt⟩ := ht
  unfold trueCount
  have hglen : ap.global_steps.length = 3 := by
    have := congrArg List.length hg
    simpa [keysOf] using this
  have hvlen : ap.variants.length = 10 := by
    have := congrArg List.length hv
    simpa [keysOf] using this
  have h1 : ap.global_steps.countP (fun p => p.2) = 3 := by
    rw [← hglen]
    exact List.countP_eq_length.mpr (fun p hp => by simp [hgt p hp])
  have h2 : ap.variants.map (fun pv => pv.2.countP (fun p => p.2))
      = ap.variants.map (fun _ => 6) := by
    apply List.map_congr_left
    intro pv hpv
    have hlen : pv.2.length = 6 := by
      have := congrArg List.length (hcols pv hpv)
      simpa [keysOf] using this
    rw [← hlen]
    exact List.countP_eq_length.mpr (fun p hp => by simp [hvt pv hpv p hp])
  rw [h1, h2]
  simp [hvlen]

/-- Claim C5: `calc_done_total` always returns `total = 63`; for an artist
with the normalized checklist shape, `done` is the count of true flags across
`global_steps` and all variants; `is_completed` holds iff `total > 0` and
`done = total`; an all-false artist yields `(0, 63)` and is not completed; a
normalized all-true artist yields `(63, 63)` and is completed. -/
theorem claim_C5 (ap : ArtistProgress) :
    (calc_done_total ap).2 = 63
    ∧ (NormalizedSteps ap → (calc_done_total ap).1 = trueCount ap)
    ∧ (is_completed ap = true
        ↔ 0 < (calc_done_total ap).2 ∧ (calc_done_total ap).1 = (calc_done_total ap).2)
    ∧ (AllFalse ap → calc_done_total ap = (0, 63) ∧ is_completed ap = false)
    ∧ (NormalizedSteps ap → AllTrue ap →
        calc_done_total ap = (63, 63) ∧ is_completed ap = true) := by
  refine ⟨by rw [calc_done_total_eq], done_eq_trueCount ap, ?_, ?_, ?_⟩
  · simp [is_completed]
  · intro h
    have hc := calc_allFalse ap h
    exact ⟨hc, by simp [is_completed, hc]⟩
  · intro hn ht
    have hdone : (calc_done_total ap).1 = 63 := by
      rw [done_eq_trueCount ap hn, trueCount_allTrue ap hn ht]
    have hc : calc_done_total ap = (63, 63) := by
      have htot : (calc_done_total ap).2 = 63 := by rw [calc_done_total_eq]
      exact Prod.ext hdone htot
    exact ⟨hc, by simp [is_completed, hc]⟩

/-- Witness for C5 at the concrete all-true normalized artist `apTrue`. -/
theorem claim_C5_witness :
    (NormalizedSteps apTrue ∧ AllTrue apTrue)
    ∧ calc_done_total apTrue = (63, 63) ∧ is_completed apTrue = true :=
  ⟨⟨by decide, by decide⟩, (claim_C5 apTrue).2.2.2.2 (by decide) (by decide)⟩

/-!  Subset-reorder helper lemmas. -/

theorem spliceSubset_nil_right (l : List String) (ps : List Nat) :
    spliceSubset l ps [] = l := by
  simp [spliceSubset]

theorem spliceSubset_props :
    ∀ (ps : List Nat) (vs : List String) (l : List String), ps.Nodup →
      (∀ p ∈ ps, p < l.length) →
      (spliceSubset l ps vs).length = l.length
      ∧ (∀ i, i ∉ ps → (spliceSubset l ps vs)[i]? = l[i]?)
      ∧ (∀ j pos, ps[j]? = some pos → j < vs.length → (spliceSubset l ps vs)[pos]? = vs[j]?)
  | [], vs, l, _, _ => by
    refine ⟨by simp [spliceSubset], fun i _ => by simp [spliceSubset], fun j pos hj _ => ?_⟩
    simp at hj
  | p :: ps, [], l, _, _ => by
    refine ⟨by simp [spliceSubset], fun i _ => by simp [spliceSubset], fun j pos _ hj => ?_⟩
    simp at hj
  | p :: ps, v :: vs, l, hnd, hb => by
    have hstep : spliceSubset l (p :: ps) (v :: vs) = spliceSubset (l.set p v) ps vs := by
      simp [spliceSubset]
    obtain ⟨hndh, hndt⟩ := List.nodup_cons.mp hnd
    have hb' : ∀ x ∈ ps, x < (l.set p v).length := by
      intro x hx
      simpa using hb x (List.mem_cons_of_mem _ hx)
    obtain ⟨ih1, ih2, ih3⟩ := spliceSubset_props ps vs (l.set p v) hndt hb'
    refine ⟨by rw [hstep, ih1]; simp, ?_, ?_⟩
    · intro i hi
      have hip : p ≠ i := fun he => hi (he ▸ List.mem_cons_self p ps)
      have hips : i ∉ ps := fun hmem => hi (List.mem_cons_of_mem _ hmem)
      rw [hstep, ih2 i hips, List.getElem?_set_ne hip]
    · intro j pos hj hjlt
      cases j with
      | zero =>
        rw [List.getElem?_cons_zero] at hj
        have hp : p = pos := by injection hj
        subst hp
        rw [hstep, ih2 p hndh, List.getElem?_set_self (hb p (List.mem_cons_self p ps)),
          List.getElem?_cons_zero]
      | succ j =>
        rw [List.getElem?_cons_succ] at hj
        rw [hstep, List.getElem?_cons_succ]
        exact ih3 j pos hj (Nat.lt_of_succ_lt_succ (by simpa using hjlt))

theorem mem_subsetPositions (full s : List String) (i : Nat) :
    i ∈ subsetPositions full s ↔ ∃ x, full[i]? = some x ∧ x ∈ s := by
  unfold subsetPositions
  constructor
  · intro h
    obtain ⟨pr, hpr, rfl⟩ := List.mem_map.mp h
    obtain ⟨hmem, hdec⟩ := List.mem_filter.mp hpr
    refine ⟨pr.2, ?_, by simpa using hdec⟩
    have : (pr.1, pr.2) ∈ full.enum := by simpa using hmem
    exact List.mk_mem_enum_iff_getElem?.mp this
  · rintro ⟨x, hx, hxs⟩
    refine List.mem_map.mpr ⟨(i, x), List.mem_filter.mpr ⟨?_, by simpa using hxs⟩, rfl⟩
    exact List.mk_mem_enum_iff_getElem?.mpr hx

theorem subsetPositions_sublist (full s : List String) :
    subsetPositions full s <+ List.range full.length := by
  have h1 : subsetPositions full s <+ full.enum.map Prod.fst :=
    (List.filter_sublist full.enum).map Prod.fst
  rwa [List.enum_map_fst] at h1

theorem subsetPositions_nodup (full s : List String) : (subsetPositions full s).Nodup :=
  (subsetPositions_sublist full s).nodup (List.nodup_range full.length)

theorem subsetPositions_bound (full s : List String) :
    ∀ p ∈ subsetPositions full s, p < full.length := by
  intro p hp
  have := (subsetPositions_sublist full s).subset hp
  exact List.mem_range.mp this

theorem subsetPositions_length_eq (full s : List String) :
    (subsetPositions full s).length = (full.filter (fun x => decide (x ∈ s))).length := by
  unfold subsetPositions
  rw [List.length_map]
  have h1 : full.filter (fun x => decide (x ∈ s))
      = (full.enum.map Prod.snd).filter (fun x => decide (x ∈ s)) := by
    rw [List.enum_map_snd]
  rw [h1, List.filter_map]
  rw [List.length_map]
  rfl

theorem accept_nodup_subset (full s : List String) (hfull : full.Nodup)
    (hacc : (subsetPositions full s).length = s.length) :
    s.Nodup ∧ ∀ x ∈ s, x ∈ full := by
  have hlen : (full.filter (fun x => decide (x ∈ s))).length = s.length := by
    rw [← subsetPositions_length_eq]; exact hacc
  have hfnd : (full.filter (fun x => decide (x ∈ s))).Nodup :=
    (List.filter_sublist full).nodup hfull
  have hsub : ∀ y ∈ full.filter (fun x => decide (x ∈ s)), y ∈ s.dedup := by
    intro y hy
    exact List.mem_dedup.mpr (by simpa using (List.mem_filter.mp hy).2)
  have hsp : full.filter (fun x => decide (x ∈ s)) <+~ s.dedup :=
    List.subperm_of_subset hfnd hsub
  have hle : s.length ≤ s.dedup.length := hlen ▸ hsp.length_le
  have hge : s.dedup.length ≤ s.length := (List.dedup_sublist s).length_le
  have hdlen : s.dedup.length = s.length := le_antisymm hge hle
  have hnd : s.Nodup := by
    have hds : s.dedup = s := (List.dedup_sublist s).eq_of_length hdlen
    rw [← hds]; exact List.nodup_dedup s
  refine ⟨hnd, ?_⟩
  intro x hx
  by_contra hxf
  have hsub' : ∀ y ∈ full.filter (fun x => decide (x ∈ s)), y ∈ s.dedup.erase x := by
    intro y hy
    have hyfull : y ∈ full := (List.mem_filter.mp hy).1
    have hyne : y ≠ x := fun he => hxf (he ▸ hyfull)
    exact (List.mem_erase_of_ne hyne).mpr (hsub y hy)
  have hsp' : full.filter (fun x => decide (x ∈ s)) <+~ s.dedup.erase x :=
    List.subperm_of_subset hfnd hsub'
  have hcard : s.length ≤ (s.dedup.erase x).length := hlen ▸ hsp'.length_le
  have hxd : x ∈ s.dedup := List.mem_dedup.mpr hx
  rw [List.length_erase_of_mem hxd, hdlen] at hcard
  have hpos : 0 < s.length := List.length_pos_of_mem hx
  omega

theorem fullIdsOf_perm (data : List ArtistProgress) :
    fullIdsOf data ~ data.map (fun a => a.id) :=
  (List.mergeSort_perm data _).map _

theorem fullIdsOf_nodup (data : List ArtistProgress)
    (h : (data.map (fun a => a.id)).Nodup) : (fullIdsOf data).Nodup :=
  ((fullIdsOf_perm data).nodup_iff).mpr h

theorem fullIdsOf_exData : fullIdsOf exData = ["A", "B", "C", "D", "E"] := by
  unfold fullIdsOf
  rw [List.mergeSort_of_sorted (by decide)]
  rfl

/-- Claim C1: for every collection and accepted subset ordering, the resulting
full id sequence overwrites the positions occupied by the subset, in order,
with the new subset ordering and keeps every other position's occupant; in
particular the [A,B,C,D,E] / [D,B] example yields [A,D,C,B,E]. -/
theorem claim_C1 :
    (∀ (data : List ArtistProgress) (subset : List String),
      (subsetPositions (fullIdsOf data) subset).length = subset.length →
      (newFullOf data subset).length = (fullIdsOf data).length
      ∧ (∀ j pos, (subsetPositions (fullIdsOf data) subset)[j]? = some pos →
          j < subset.length → (newFullOf data subset)[pos]? = subset[j]?)
      ∧ (∀ i, i ∉ subsetPositions (fullIdsOf data) subset →
          (newFullOf data subset)[i]? = (fullIdsOf data)[i]?))
    ∧ newFullOf exData ["D", "B"] = ["A", "D", "C", "B", "E"] := by
  constructor
  · intro data subset _
    obtain ⟨h1, h2, h3⟩ := spliceSubset_props
      (subsetPositions (fullIdsOf data) subset) subset (fullIdsOf data)
      (subsetPositions_nodup _ _) (subsetPositions_bound _ _)
    exact ⟨h1, h3, h2⟩
  · unfold newFullOf
    rw [fullIdsOf_exData]
    decide

/-- Witness for C1 at the concrete example: the subset {B,D} reordered to
[D,B] is accepted, and position 1 (B's slot) now holds D. -/
theorem claim_C1_witness :
    (subsetPositions (fullIdsOf exData) ["D", "B"]).length = (["D", "B"] : List String).length
    ∧ (newFullOf exData ["D", "B"])[1]? = (["D", "B"] : List String)[0]? := by
  have hacc : (subsetPositions (fullIdsOf exData) ["D", "B"]).length
      = (["D", "B"] : List String).length := by
    rw [fullIdsOf_exData]; decide
  refine ⟨hacc, (claim_C1.1 exData ["D", "B"] hacc).2.1 0 1 ?_ (by decide)⟩
  rw [fullIdsOf_exData]
  decide

/-- Claim C2: a subset ordering that fails the position-count precondition —
in particular one containing an id not present in the collection — is
rejected: `apply_subset_reorder` returns false and the collection is
unchanged (and nothing is persisted, since persistence only happens on the
changed branch). -/
theorem claim_C2 (data : List ArtistProgress) (subset : List String)
    (hnd : (data.map (fun a => a.id)).Nodup) :
    ((subsetPositions (fullIdsOf data) subset).length ≠ subset.length →
      apply_subset_reorder data subset = (false, data))
    ∧ (∀ x ∈ subset, x ∉ data.map (fun a => a.id) →
      apply_subset_reorder data subset = (false, data)) := by
  constructor
  · intro h
    unfold apply_subset_reorder
    rw [if_pos h]
  · intro x hx hnx
    have hne : (subsetPositions (fullIdsOf data) subset).length ≠ subset.length := by
      intro hacc
      have hmem := (accept_nodup_subset _ _ (fullIdsOf_nodup data hnd) hacc).2 x hx
      exact hnx ((fullIdsOf_perm data).mem_iff.mp hmem)
    unfold apply_subset_reorder
    rw [if_pos hne]

/-- Witness for C2: reordering with the foreign id "Z" is rejected on the
five-artist example collection. -/
theorem claim_C2_witness :
    ((exData.map (fun a => a.id)).Nodup
      ∧ ("Z" : String) ∈ (["Z", "B"] : List String)
      ∧ ("Z" : String) ∉ exData.map (fun a => a.id))
    ∧ apply_subset_reorder exData ["Z", "B"] = (false, exData) :=
  ⟨⟨by decide, by decide, by decide⟩,
    (claim_C2 exData ["Z", "B"] (by decide)).2 "Z" (by decide) (by decide)⟩

/-- Claim C10: a subset ordering containing a repeated id always fails the
precondition check, so `apply_subset_reorder` returns false and performs no
state change. -/
theorem claim_C10 (data : List ArtistProgress) (subset : List String)
    (hnd : (data.map (fun a => a.id)).Nodup) (hdup : ¬ subset.Nodup) :
    apply_subset_reorder data subset = (false, data) := by
  have hne : (subsetPositions (fullIdsOf data) subset).length ≠ subset.length := by
    intro hacc
    exact hdup (accept_nodup_subset _ _ (fullIdsOf_nodup data hnd) hacc).1
  unfold apply_subset_reorder
  rw [if_pos hne]

/-- Witness for C10: the duplicated subset ["B", "B"] is rejected on the
five-artist example collection. -/
theorem claim_C10_witness :
    ((exData.map (fun a => a.id)).Nodup ∧ ¬ (["B", "B"] : List String).Nodup)
    ∧ apply_subset_reorder exData ["B", "B"] = (false, exData) :=
  ⟨⟨by decide, by decide⟩, claim_C10 exData ["B", "B"] (by decide) (by decide)⟩

theorem set_of_getElem?_eq (l : List String) (i : Nat) (a : String)
    (h : l[i]? = some a) : l.set i a = l := by
  apply List.ext_getElem?
  intro n
  by_cases hn : i = n
  · subst hn
    rw [List.getElem?_set_self (by
      rcases List.getElem?_eq_some_iff.mp h with ⟨hlt, -⟩
      exact hlt)]
    exact h.symm
  · exact List.getElem?_set_ne hn

/-- Claim C4: under the accepted precondition, `apply_subset_reorder` returns
true iff the spliced full sequence differs from the original; an accepted
subset of size 0 or 1 always yields false and no change. -/
theorem claim_C4 (data : List ArtistProgress) (subset : List String)
    (hacc : (subsetPositions (fullIdsOf data) subset).length = subset.length) :
    ((apply_subset_reorder data subset).1 = true ↔ newFullOf data subset ≠ fullIdsOf data)
    ∧ (subset.length ≤ 1 → apply_subset_reorder data subset = (false, data)) := by
  constructor
  · unfold apply_subset_reorder
    rw [if_neg (fun hcon => hcon hacc)]
    by_cases hch : newFullOf data subset ≠ fullIdsOf data
    · rw [if_pos hch]
      simpa using hch
    · rw [if_neg hch]
      simpa using hch
  · intro hlen
    have heq : newFullOf data subset = fullIdsOf data := by
      match subset, hlen with
      | [], _ => exact spliceSubset_nil_right _ _
      | [x], _ =>
        obtain ⟨p, hp⟩ := List.length_eq_one.mp hacc
        unfold newFullOf
        rw [hp]
        have hpmem : p ∈ subsetPositions (fullIdsOf data) [x] := by
          rw [hp]; exact List.mem_cons_self p []
        obtain ⟨y, hy, hys⟩ := (mem_subsetPositions _ _ p).mp hpmem
        have hyx : y = x := by simpa using hys
        subst hyx
        show spliceSubset (fullIdsOf data) [p] [y] = fullIdsOf data
        unfold spliceSubset
        simp only [List.zip_cons_cons, List.zip_nil_right, List.foldl_cons, List.foldl_nil]
        exact set_of_getElem?_eq _ _ _ hy
    unfold apply_subset_reorder
    rw [if_neg (fun hcon => hcon hacc), if_neg (fun hcon => hcon heq)]

/-- Witness for C4: the identity subset ["B"] of size 1 is accepted and
produces no change on the example collection. -/
theorem claim_C4_witness :
    (subsetPositions (fullIdsOf exData) ["B"]).length = (["B"] : List String).length
    ∧ apply_subset_reorder exData ["B"] = (false, exData) := by
  have hacc : (subsetPositions (fullIdsOf exData) ["B"]).length
      = (["B"] : List String).length := by
    rw [fullIdsOf_exData]; decide
  exact ⟨hacc, (claim_C4 exData ["B"] hacc).2 (by decide)⟩

theorem newFull_perm (data : List ArtistProgress) (subset : List String)
    (hfn : (fullIdsOf data).Nodup)
    (hacc : (subsetPositions (fullIdsOf data) subset).length = subset.length) :
    newFullOf data subset ~ fullIdsOf data := by
  obtain ⟨hlen, hoff, hat⟩ := spliceSubset_props
    (subsetPositions (fullIdsOf data) subset) subset (fullIdsOf data)
    (subsetPositions_nodup _ _) (subsetPositions_bound _ _)
  have hsub : fullIdsOf data ⊆ newFullOf data subset := by
    intro y hy
    obtain ⟨i, hilt, hival⟩ := List.getElem_of_mem hy
    by_cases hip : i ∈ subsetPositions (fullIdsOf data) subset
    · obtain ⟨x, hx, hxs⟩ := (mem_subsetPositions _ _ i).mp hip
      rw [List.getElem?_eq_getElem hilt] at hx
      injection hx with hx
      have hxy : x = y := by rw [← hx]; exact hival
      subst hxy
      obtain ⟨j, hjlt, hjval⟩ := List.getElem_of_mem hxs
      have hjps : j < (subsetPositions (fullIdsOf data) subset).length := by
        rw [hacc]; exact hjlt
      obtain ⟨pos, hpos⟩ : ∃ pos, (subsetPositions (fullIdsOf data) subset)[j]? = some pos :=
        ⟨_, List.getElem?_eq_getElem hjps⟩
      have h2 := hat j pos hpos hjlt
      rw [List.getElem?_eq_getElem hjlt] at h2
      rw [hjval] at h2
      exact List.getElem?_mem h2
    · have h2 := hoff i hip
      rw [List.getElem?_eq_getElem hilt, hival] at h2
      exact List.getElem?_mem h2
  have hsp := List.subperm_of_subset hfn hsub
  exact (hsp.perm_of_length_le (le_of_eq hlen)).symm

theorem setOrders_go :
    ∀ (nf : List String) (k : Nat) (d : List ArtistProgress), nf.Nodup →
      (List.enumFrom k nf).foldl
        (fun d p => d.map (fun a => if a.id = p.2 then { a with order := (p.1 : Int) } else a)) d
      = d.map (fun a =>
          if a.id ∈ nf then { a with order := ((k + List.indexOf a.id nf : Nat) : Int) } else a)
  | [], k, d, _ => by
    simp
  | x :: nf, k, d, hnd => by
    obtain ⟨hx, hnd'⟩ := List.nodup_cons.mp hnd
    rw [show List.enumFrom k (x :: nf) = (k, x) :: List.enumFrom (k + 1) nf from rfl,
      List.foldl_cons]
    rw [setOrders_go nf (k + 1) _ hnd', List.map_map]
    apply List.map_congr_left
    intro a _
    simp only [Function.comp_apply]
    by_cases ha : a.id = x
    · rw [if_pos ha]
      rw [if_neg (show ¬ ({ a with order := ((k, x).1 : Int) } : ArtistProgress).id ∈ nf by
        show ¬ a.id ∈ nf
        rw [ha]; exact hx)]
      rw [if_pos (by rw [ha]; exact List.mem_cons_self x nf)]
      rw [List.indexOf_cons_eq nf ha.symm, Nat.add_zero]
    · rw [if_neg ha]
      by_cases hmem : a.id ∈ nf
      · rw [if_pos hmem, if_pos (List.mem_cons_of_mem x hmem)]
        rw [List.indexOf_cons_ne nf (fun he => ha he.symm)]
        have harith : k + 1 + List.indexOf a.id nf = k + Nat.succ (List.indexOf a.id nf) := by
          omega
        rw [harith]
      · rw [if_neg hmem, if_neg (by simp [ha, hmem])]

theorem setOrders_eq (data : List ArtistProgress) (nf : List String) (hnd : nf.Nodup) :
    setOrders data nf = data.map (fun a =>
      if a.id ∈ nf then { a with order := ((1 + List.indexOf a.id nf : Nat) : Int) } else a) := by
  unfold setOrders
  exact setOrders_go nf 1 data hnd

theorem map_indexOf_self :
    ∀ (nf : List String), nf.Nodup →
      nf.map (fun x => List.indexOf x nf) = List.range nf.length
  | [], _ => by simp
  | x :: nf, hnd => by
    obtain ⟨hx, hnd'⟩ := List.nodup_cons.mp hnd
    rw [List.map_cons, List.indexOf_cons_self, List.length_cons, List.range_succ_eq_map]
    congr 1
    have h1 : nf.map (fun y => List.indexOf y (x :: nf))
        = nf.map (fun y => Nat.succ (List.indexOf y nf)) := by
      apply List.map_congr_left
      intro y hy
      exact List.indexOf_cons_ne nf (fun he => hx (he ▸ hy))
    rw [h1, show (fun y => Nat.succ (List.indexOf y nf))
        = Nat.succ ∘ (fun y => List.indexOf y nf) from rfl]
    rw [← List.map_map, map_indexOf_self nf hnd']

/-- Claim C3: when `apply_subset_reorder` returns true it has rewritten every
artist's `order` to its 1-based index in the new full id sequence (ids are
untouched), so the resulting order values are exactly a permutation of
`1..N`. -/
theorem claim_C3 (data data' : List ArtistProgress) (subset : List String)
    (hnd : (data.map (fun a => a.id)).Nodup)
    (h : apply_subset_reorder data subset = (true, data')) :
    (∀ a ∈ data', a.order = ((1 + List.indexOf a.id (newFullOf data subset) : Nat) : Int))
    ∧ data'.map (fun a => a.id) = data.map (fun a => a.id)
    ∧ List.Perm (data'.map (fun a => a.order))
        ((List.range' 1 data.length).map (fun m : Nat => (m : Int))) := by
  unfold apply_subset_reorder at h
  by_cases h1 : (subsetPositions (fullIdsOf data) subset).length ≠ subset.length
  · rw [if_pos h1] at h
    exact absurd (congrArg Prod.fst h) (by simp)
  · rw [if_neg h1] at h
    have hacc := not_not.mp h1
    by_cases h2 : newFullOf data subset ≠ fullIdsOf data
    · rw [if_pos h2] at h
      have hdata' : data' = setOrders data (newFullOf data subset) := by
        have h3 := congrArg Prod.snd h
        simpa using h3.symm
      have hfn := fullIdsOf_nodup data hnd
      have hperm := newFull_perm data subset hfn hacc
      have hnfnd : (newFullOf data subset).Nodup := hperm.nodup_iff.mpr hfn
      have hmemall : ∀ a ∈ data, a.id ∈ newFullOf data subset := by
        intro a ha
        exact hperm.mem_iff.mpr ((fullIdsOf_perm data).mem_iff.mpr (List.mem_map_of_mem _ ha))
      have hset : data' = data.map (fun a =>
          { a with order := ((1 + List.indexOf a.id (newFullOf data subset) : Nat) : Int) }) := by
        rw [hdata', setOrders_eq data _ hnfnd]
        apply List.map_congr_left
        intro a ha
        rw [if_pos (hmemall a ha)]
      refine ⟨?_, ?_, ?_⟩
      · intro a ha'
        rw [hset] at ha'
        obtain ⟨a₀, ha₀, rfl⟩ := List.mem_map.mp ha'
        rfl
      · rw [hset, List.map_map]
        exact List.map_congr_left (fun a _ => rfl)
      · have hord : data'.map (fun a => a.order)
            = (data.map (fun a => a.id)).map
                (fun x => ((1 + List.indexOf x (newFullOf data subset) : Nat) : Int)) := by
          rw [hset, List.map_map, List.map_map]
          exact List.map_congr_left (fun a _ => rfl)
        rw [hord]
        have hpermids : List.Perm (data.map (fun a => a.id)) (newFullOf data subset) :=
          (hperm.trans (fullIdsOf_perm data)).symm
        have hp1 := hpermids.map
          (fun x => ((1 + List.indexOf x (newFullOf data subset) : Nat) : Int))
        refine hp1.trans ?_
        have hlen : (newFullOf data subset).length = data.length := by
          have h4 := hpermids.length_eq
          rw [List.length_map] at h4
          exact h4.symm
        have hmapF : (newFullOf data subset).map
              (fun x => ((1 + List.indexOf x (newFullOf data subset) : Nat) : Int))
            = ((newFullOf data subset).map
                (fun x => List.indexOf x (newFullOf data subset))).map
                (fun i => ((1 + i : Nat) : Int)) := by
          rw [List.map_map]
          exact List.map_congr_left (fun x _ => rfl)
        rw [hmapF, map_indexOf_self _ hnfnd, hlen, List.range'_eq_map_range, List.map_map]
        rfl
    · rw [if_neg h2] at h
      exact absurd (congrArg Prod.fst h) (by simp)

/-- Witness for C3: the example reorder is accepted, changes the collection to
`exDataAfter`, and the resulting orders are a permutation of 1..5. -/
theorem claim_C3_witness :
    ((exData.map (fun a => a.id)).Nodup
      ∧ apply_subset_reorder exData ["D", "B"] = (true, exDataAfter))
    ∧ List.Perm (exDataAfter.map (fun a => a.order))
        ((List.range' 1 exData.length).map (fun m : Nat => (m : Int))) := by
  have happ : apply_subset_reorder exData ["D", "B"] = (true, exDataAfter) := by
    unfold apply_subset_reorder newFullOf
    rw [fullIdsOf_exData]
    decide
  exact ⟨⟨by decide, happ⟩, (claim_C3 exData exDataAfter ["D", "B"] (by decide) happ).2.2⟩

/-!  Filter and sort lemmas. -/

theorem isSubstr_of_empty (hay : String) : isSubstr "" hay = true := by
  unfold isSubstr
  apply List.any_eq_true.mpr
  refine ⟨0, List.mem_range.mpr (Nat.succ_pos _), ?_⟩
  rw [show ("" : String).data = [] from by decide]
  cases hl : List.drop 0 hay.data <;> rfl

theorem pylower_empty : pylower "" = "" := by decide

theorem filter_artists_all (all : List ArtistProgress) (q : String) :
    filter_artists all q "Hepsi"
      = if pstrip q ≠ "" then
          all.filter (fun a => isSubstr (pylower (pstrip q)) (pylower a.label))
        else all := by
  simp only [filter_artists]
  rw [if_neg (by decide), if_neg (by decide)]

theorem filter_artists_incomplete (all : List ArtistProgress) (q : String) :
    filter_artists all q "Sadece tamamlanmamışlar"
      = (if pstrip q ≠ "" then
          all.filter (fun a => isSubstr (pylower (pstrip q)) (pylower a.label))
        else all).filter (fun a => !is_completed a) := by
  simp only [filter_artists]
  rw [if_pos (by decide)]

theorem filter_artists_complete (all : List ArtistProgress) (q : String) :
    filter_artists all q "Sadece tamamlanmışlar"
      = (if pstrip q ≠ "" then
          all.filter (fun a => isSubstr (pylower (pstrip q)) (pylower a.label))
        else all).filter (fun a => is_completed a) := by
  simp only [filter_artists]
  rw [if_neg (by decide), if_pos (by decide)]

/-- Claim C7: membership in `filter_artists` is the intersection of the text
filter (case-insensitive substring of the trimmed query against the label;
an empty trimmed query matches everything) with the completion filter
("Hepsi" = show all, "Sadece tamamlanmamışlar" = incomplete only,
"Sadece tamamlanmışlar" = complete only). -/
theorem claim_C7 (all : List ArtistProgress) (q : String) (a : ArtistProgress) :
    (a ∈ filter_artists all q "Hepsi"
      ↔ a ∈ all ∧ isSubstr (pylower (pstrip q)) (pylower a.label) = true)
    ∧ (a ∈ filter_artists all q "Sadece tamamlanmamışlar"
      ↔ a ∈ all ∧ isSubstr (pylower (pstrip q)) (pylower a.label) = true
          ∧ is_completed a = false)
    ∧ (a ∈ filter_artists all q "Sadece tamamlanmışlar"
      ↔ a ∈ all ∧ isSubstr (pylower (pstrip q)) (pylower a.label) = true
          ∧ is_completed a = true) := by
  rw [filter_artists_all, filter_artists_incomplete, filter_artists_complete]
  by_cases hq : pstrip q = ""
  · rw [hq]
    simp [List.mem_filter, pylower_empty, isSubstr_of_empty, and_assoc]
  · rw [if_pos hq]
    simp only [List.mem_filter, Bool.not_eq_true']
    tauto

/-- Claim C8: the progress-descending sort is stable — artists with equal
completion ratio keep their relative order from the input list. -/
theorem claim_C8 (l : List ArtistProgress) (a b : ArtistProgress)
    (hr : ratio a = ratio b) (hab : [a, b] <+ l) :
    [a, b] <+ sortByProgress l := by
  unfold sortByProgress
  apply List.pair_sublist_mergeSort
  · intro x y z hxy hyz
    simp only [decide_eq_true_eq] at hxy hyz ⊢
    exact le_trans hyz hxy
  · intro x y
    simp only [Bool.or_eq_true, decide_eq_true_eq]
    exact le_total (ratio y) (ratio x)
  · simp [hr]
  · exact hab

/-- Witness for C8 at two concrete equal-ratio artists. -/
theorem claim_C8_witness :
    ratio (mkArtist "A" 1) = ratio (mkArtist "B" 2)
    ∧ [mkArtist "A" 1, mkArtist "B" 2] <+ sortByProgress [mkArtist "A" 1, mkArtist "B" 2] := by
  have hr : ratio (mkArtist "A" 1) = ratio (mkArtist "B" 2) := by
    unfold ratio
    rw [show calc_done_total (mkArtist "A" 1) = (0, 63) from by decide,
      show calc_done_total (mkArtist "B" 2) = (0, 63) from by decide]
  exact ⟨hr, claim_C8 _ _ _ hr (List.Sublist.refl _)⟩

/-!  Record-store lemmas: stripping, re-normalization fixpoint, load/save. -/

theorem dropWhile_rdropWhile_dropWhile (p : Char → Bool) (l : List Char) :
    List.dropWhile p (List.rdropWhile p (List.dropWhile p l))
      = List.rdropWhile p (List.dropWhile p l) := by
  obtain ⟨t, ht⟩ := List.rdropWhile_prefix p (List.dropWhile p l)
  cases hr : List.rdropWhile p (List.dropWhile p l) with
  | nil => rfl
  | cons x r =>
    have hxm : List.dropWhile p l = x :: (r ++ t) := by
      rw [← ht, hr]; rfl
    have hpx : p x = false := by
      have h0 := List.head?_dropWhile_not p l
      rw [hxm] at h0
      simpa using h0
    rw [List.dropWhile_cons_of_neg (by simp [hpx])]

theorem pstrip_idem (s : String) : pstrip (pstrip s) = pstrip s := by
  unfold pstrip
  dsimp only
  rw [dropWhile_rdropWhile_dropWhile, List.rdropWhile_idempotent]

theorem renorm_global (gin : List (String × Bool)) :
    GLOBAL_STEPS.map (fun g =>
      (g.1, dget (GLOBAL_STEPS.map (fun g' => (g'.1, dget gin g'.1 false))) g.1 false))
    = GLOBAL_STEPS.map (fun g => (g.1, dget gin g.1 false)) := by
  apply List.map_congr_left
  intro g hg
  rw [dget_map_self (fun k => dget gin k false) g.1 false GLOBAL_STEPS (by decide)
    (mem_keysOf_of_mem hg)]

theorem renorm_variants (vin : List (String × List (String × Bool))) :
    VARIANTS.map (fun ve => (ve.1, COLUMN_STEPS.map (fun s => (s.1,
      dget (dget (VARIANTS.map (fun ve' => (ve'.1, COLUMN_STEPS.map (fun s' =>
        (s'.1, dget (dget vin ve'.1 []) s'.1 false))))) ve.1 []) s.1 false))))
    = VARIANTS.map (fun ve => (ve.1, COLUMN_STEPS.map (fun s =>
        (s.1, dget (dget vin ve.1 []) s.1 false)))) := by
  apply List.map_congr_left
  intro ve hve
  have h1 : dget (VARIANTS.map (fun ve' => (ve'.1, COLUMN_STEPS.map (fun s' =>
      (s'.1, dget (dget vin ve'.1 []) s'.1 false))))) ve.1 []
      = COLUMN_STEPS.map (fun s' => (s'.1, dget (dget vin ve.1 []) s'.1 false)) :=
    dget_map_self (fun k => COLUMN_STEPS.map (fun s' => (s'.1, dget (dget vin k []) s'.1 false)))
      ve.1 [] VARIANTS (by decide) (mem_keysOf_of_mem hve)
  rw [h1]
  congr 1

theorem normalizeEntry_fix (key : String) (v : RawRecord) :
    normalizeEntry (normalizeEntry key v).1 (recordOf (normalizeEntry key v).2)
      = normalizeEntry key v := by
  unfold normalizeEntry recordOf
  dsimp only [Option.getD_some]
  have haid : pstrip (if pstrip (v.id.getD "") ≠ "" then pstrip (v.id.getD "") else pstrip key)
      = (if pstrip (v.id.getD "") ≠ "" then pstrip (v.id.getD "") else pstrip key) := by
    by_cases h : pstrip (v.id.getD "") ≠ ""
    · rw [if_pos h]
      exact pstrip_idem _
    · rw [if_neg h]
      exact pstrip_idem _
  rw [haid, ite_self]
  have hlab : pstrip (if pstrip (v.label.getD "") ≠ "" then pstrip (v.label.getD "")
        else (if pstrip (v.id.getD "") ≠ "" then pstrip (v.id.getD "") else pstrip key))
      = (if pstrip (v.label.getD "") ≠ "" then pstrip (v.label.getD "")
        else (if pstrip (v.id.getD "") ≠ "" then pstrip (v.id.getD "") else pstrip key)) := by
    by_cases h : pstrip (v.label.getD "") ≠ ""
    · rw [if_pos h]
      exact pstrip_idem _
    · rw [if_neg h]
      exact haid
  rw [hlab]
  rw [renorm_global, renorm_variants]
  by_cases hl : (if pstrip (v.label.getD "") ≠ "" then pstrip (v.label.getD "")
      else (if pstrip (v.id.getD "") ≠ "" then pstrip (v.id.getD "") else pstrip key)) ≠ ""
  · rw [if_pos hl]
  · rw [if_neg hl]
    have hl' := not_not.mp hl
    have hlabeq : (if pstrip (v.label.getD "") ≠ "" then pstrip (v.label.getD "")
        else (if pstrip (v.id.getD "") ≠ "" then pstrip (v.id.getD "") else pstrip key))
        = (if pstrip (v.id.getD "") ≠ "" then pstrip (v.id.getD "") else pstrip key) := by
      by_cases hLe : pstrip (v.label.getD "") ≠ ""
      · exfalso
        rw [if_pos hLe] at hl'
        exact hLe hl'
      · rw [if_neg hLe]
    rw [hlabeq]

theorem keysOf_append {α : Type} (m m' : List (String × α)) :
    keysOf (m ++ m') = keysOf m ++ keysOf m' := by
  simp [keysOf]

theorem dictInsert_nodup {α : Type} (m : List (String × α)) (k : String) (v : α)
    (h : (keysOf m).Nodup) : (keysOf (dictInsert m k v)).Nodup := by
  unfold dictInsert
  split
  · have hk : keysOf (m.map (fun p => if p.1 == k then (k, v) else p)) = keysOf m := by
      unfold keysOf
      rw [List.map_map]
      apply List.map_congr_left
      intro p _
      by_cases hp : (p.1 == k) = true
      · simp only [Function.comp_apply, hp, if_pos]
        have : p.1 = k := by simpa using hp
        simp [this]
      · have hp' : ¬ p.1 = k := by simpa using hp
        simp [Function.comp_apply, hp']
    rw [hk]
    exact h
  · rename_i hany
    rw [keysOf_append]
    have hnotin : k ∉ keysOf m := by
      intro hkmem
      obtain ⟨p, hp, rfl⟩ := List.mem_map.mp hkmem
      exact hany (List.any_eq_true.mpr ⟨p, hp, by simp⟩)
    refine List.nodup_append.mpr ⟨h, List.nodup_singleton _, ?_⟩
    intro a ha hb
    have hak : a = k := by simpa [keysOf] using hb
    exact hnotin (hak ▸ ha)

theorem dictInsert_forall {α : Type} (P : String × α → Prop) (m : List (String × α))
    (k : String) (v : α) (hm : ∀ e ∈ m, P e) (hkv : P (k, v)) :
    ∀ e ∈ dictInsert m k v, P e := by
  unfold dictInsert
  split
  · intro e he
    obtain ⟨p, hp, rfl⟩ := List.mem_map.mp he
    by_cases hc : (p.1 == k) = true
    · rw [if_pos hc]
      exact hkv
    · rw [if_neg hc]
      exact hm p hp
  · intro e he
    rcases List.mem_append.mp he with h | h
    · exact hm e h
    · have : e = (k, v) := by simpa using h
      rw [this]
      exact hkv

theorem load_fold_invariant :
    ∀ (raw : List (String × RawRecord)) (acc : List (String × ArtistProgress)),
      (∀ e ∈ acc, normalizeEntry e.1 (recordOf e.2) = e) → (keysOf acc).Nodup →
      (∀ e ∈ raw.foldl (fun data e =>
          dictInsert data (normalizeEntry e.1 e.2).1 (normalizeEntry e.1 e.2).2) acc,
        normalizeEntry e.1 (recordOf e.2) = e)
      ∧ (keysOf (raw.foldl (fun data e =>
          dictInsert data (normalizeEntry e.1 e.2).1 (normalizeEntry e.1 e.2).2) acc)).Nodup
  | [], acc, hP, hnd => by
    rw [List.foldl_nil]
    exact ⟨hP, hnd⟩
  | r :: raw, acc, hP, hnd => by
    rw [List.foldl_cons]
    apply load_fold_invariant raw _ ?_ ?_
    · apply dictInsert_forall _ _ _ _ hP
      show normalizeEntry (normalizeEntry r.1 r.2).1
          (recordOf ((normalizeEntry r.1 r.2).1, (normalizeEntry r.1 r.2).2).2)
        = ((normalizeEntry r.1 r.2).1, (normalizeEntry r.1 r.2).2)
      rw [Prod.mk.eta]
      exact normalizeEntry_fix r.1 r.2
    · exact dictInsert_nodup _ _ _ hnd

theorem load_data_fix (raw : List (String × RawRecord)) :
    (∀ e ∈ load_data raw, normalizeEntry e.1 (recordOf e.2) = e)
    ∧ (keysOf (load_data raw)).Nodup := by
  unfold load_data
  exact load_fold_invariant raw [] (by intro e he; cases he) (by simp [keysOf])

theorem load_save_load (data : List (String × ArtistProgress))
    (hP : ∀ e ∈ data, normalizeEntry e.1 (recordOf e.2) = e)
    (hnd : (keysOf data).Nodup) :
    load_data (save_data data) = data := by
  suffices h : ∀ (l acc : List (String × ArtistProgress)),
      (∀ e ∈ l, normalizeEntry e.1 (recordOf e.2) = e) →
      (keysOf (acc ++ l)).Nodup →
      ((l.map (fun e => (e.1, recordOf e.2))).foldl (fun d e =>
        dictInsert d (normalizeEntry e.1 e.2).1 (normalizeEntry e.1 e.2).2) acc) = acc ++ l by
    have h2 := h data [] hP (by simpa using hnd)
    simpa [load_data, save_data] using h2
  intro l
  induction l with
  | nil =>
    intro acc _ _
    simp
  | cons e l ih =>
    intro acc hPl hnd'
    rw [List.map_cons, List.foldl_cons]
    have hfix : normalizeEntry e.1 (recordOf e.2) = e := hPl e (List.mem_cons_self e l)
    rw [show (normalizeEntry e.1 (recordOf e.2)).1 = e.1 from congrArg Prod.fst hfix,
      show (normalizeEntry e.1 (recordOf e.2)).2 = e.2 from congrArg Prod.snd hfix]
    have hknotin : ¬ acc.any (fun p => p.1 == e.1) = true := by
      intro hany
      obtain ⟨p, hp, hpeq⟩ := List.any_eq_true.mp hany
      have hmem : e.1 ∈ keysOf acc := by
        have hpe : p.1 = e.1 := by simpa using hpeq
        exact hpe ▸ mem_keysOf_of_mem hp
      rw [keysOf_append] at hnd'
      have hdisj := (List.nodup_append.mp hnd').2.2
      exact hdisj hmem (by simp [keysOf])
    have hins : dictInsert acc e.1 e.2 = acc ++ [e] := by
      unfold dictInsert
      rw [if_neg hknotin]
    rw [hins]
    have hnd2 : (keysOf ((acc ++ [e]) ++ l)).Nodup := by
      rw [List.append_assoc]
      simpa using hnd'
    rw [ih (acc ++ [e]) (fun x hx => hPl x (List.mem_cons_of_mem e hx)) hnd2,
      List.append_assoc]
    rfl

/-- Claim C6: normalization on load is idempotent — saving the collection
produced by loading an already-normalized store reproduces that store
exactly, so applying load-then-save twice to any persisted store yields
identical output the second time (and hence byte-identical JSON, since
serialization is a deterministic function of the saved entries). -/
theorem claim_C6 (raw : List (String × RawRecord)) :
    save_data (load_data (save_data (load_data raw))) = save_data (load_data raw) := by
  obtain ⟨hP, hnd⟩ := load_data_fix raw
  rw [load_save_load (load_data raw) hP hnd]

/-- Counterexample to C9 as stated: for storage key "K" and a record whose
`id` field is "X" and whose `label` is blank, the loaded label falls back to
the resolved artist id "X", not to the storage key "K"; moreover a blank id
falls back to the stripped storage key, not the storage key itself. -/
theorem claim_C9_counterexample :
    ((normalizeEntry "K" recX).2.label = "X" ∧ (normalizeEntry "K" recX).2.label ≠ "K")
    ∧ ((normalizeEntry " K" recEmpty).2.id = "K"
        ∧ (normalizeEntry " K" recEmpty).2.id ≠ " K") := by
  exact ⟨⟨by decide, by decide⟩, by decide, by decide⟩

/-- Claim C9 (amended): loading normalizes every record against the fixed
catalogs — step keys are exactly the catalog keys (missing ones default to
false, extra ones are dropped); a record missing `variants` yields all 10
variant maps with all 6 steps false; a missing `order` defaults to `10^9`; a
missing or blank `id` falls back to the trimmed storage key; a missing or
blank `label` falls back to the resolved artist id (which equals the storage
key only when the `id` field is itself missing or blank). -/
theorem claim_C9 (key : String) (v : RawRecord) :
    NormalizedSteps (normalizeEntry key v).2
    ∧ (∀ g ∈ GLOBAL_STEPS,
        (g.1, dget (v.global_steps.getD []) g.1 false) ∈ (normalizeEntry key v).2.global_steps)
    ∧ (v.variants = none →
        (normalizeEntry key v).2.variants
          = VARIANTS.map (fun ve => (ve.1, COLUMN_STEPS.map (fun s => (s.1, false)))))
    ∧ (v.order = none → (normalizeEntry key v).2.order = 10 ^ 9)
    ∧ (pstrip (v.id.getD "") = "" → (normalizeEntry key v).2.id = pstrip key)
    ∧ (pstrip (v.label.getD "") = "" →
        (normalizeEntry key v).2.label = (normalizeEntry key v).2.id)
    ∧ (normalizeEntry key v).1 = (normalizeEntry key v).2.id := by
  refine ⟨⟨?_, ?_, ?_⟩, ?_, ?_, ?_, ?_, ?_, rfl⟩
  · show keysOf (GLOBAL_STEPS.map (fun g => (g.1, dget (v.global_steps.getD []) g.1 false)))
      = keysOf GLOBAL_STEPS
    unfold keysOf
    rw [List.map_map]
    exact List.map_congr_left (fun g _ => rfl)
  · show keysOf (VARIANTS.map (fun ve => (ve.1, COLUMN_STEPS.map (fun s =>
        (s.1, dget (dget (v.variants.getD []) ve.1 []) s.1 false))))) = keysOf VARIANTS
    unfold keysOf
    rw [List.map_map]
    exact List.map_congr_left (fun ve _ => rfl)
  · intro pv hpv
    obtain ⟨ve, _, rfl⟩ := List.mem_map.mp hpv
    show keysOf (COLUMN_STEPS.map (fun s =>
        (s.1, dget (dget (v.variants.getD []) ve.1 []) s.1 false))) = keysOf COLUMN_STEPS
    unfold keysOf
    rw [List.map_map]
    exact List.map_congr_left (fun s _ => rfl)
  · intro g hg
    exact List.mem_map_of_mem (fun g => (g.1, dget (v.global_steps.getD []) g.1 false)) hg
  · intro hv
    show VARIANTS.map (fun ve => (ve.1, COLUMN_STEPS.map (fun s =>
        (s.1, dget (dget (v.variants.getD []) ve.1 []) s.1 false))))
      = VARIANTS.map (fun ve => (ve.1, COLUMN_STEPS.map (fun s => (s.1, false))))
    rw [hv]
    rfl
  · intro ho
    show v.order.getD (10 ^ 9) = 10 ^ 9
    rw [ho]
    rfl
  · intro hid
    show (if pstrip (v.id.getD "") ≠ "" then pstrip (v.id.getD "") else pstrip key) = pstrip key
    rw [if_neg (not_not_intro hid)]
  · intro hlabel
    show (if pstrip (v.label.getD "") ≠ "" then pstrip (v.label.getD "")
        else (if pstrip (v.id.getD "") ≠ "" then pstrip (v.id.getD "") else pstrip key))
      = (normalizeEntry key v).2.id
    rw [if_neg (not_not_intro hlabel)]
    rfl

/-- Witness for C9 at the all-missing record `recEmpty` with storage key "k". -/
theorem claim_C9_witness :
    (recEmpty.variants = none ∧ recEmpty.order = none
      ∧ pstrip (recEmpty.id.getD "") = "" ∧ pstrip (recEmpty.label.getD "") = "")
    ∧ (normalizeEntry "k" recEmpty).2.variants
        = VARIANTS.map (fun ve => (ve.1, COLUMN_STEPS.map (fun s => (s.1, false))))
    ∧ (normalizeEntry "k" recEmpty).2.order = 10 ^ 9
    ∧ (normalizeEntry "k" recEmpty).2.id = pstrip "k"
    ∧ (normalizeEntry "k" recEmpty).2.label = (normalizeEntry "k" recEmpty).2.id := by
  refine ⟨⟨rfl, rfl, by decide, by decide⟩, ?_, ?_, ?_, ?_⟩
  · exact (claim_C9 "k" recEmpty).2.2.1 rfl
  · exact (claim_C9 "k" recEmpty).2.2.2.1 rfl
  · exact (claim_C9 "k" recEmpty).2.2.2.2.1 (by decide)
  · exact (claim_C9 "k" recEmpty).2.2.2.2.2.1 (by decide)
